import Mathlib

/-!
Verification of the go-store storage-abstraction library: a shallow embedding
of its metadata codec, the local, WebDav, S3 and null backends, and the S3
chunked-upload loop, together with theorems settling the specification claims.
-/

namespace GoStore

/-- Byte content of a file, modelled as a list of characters. -/
abbrev Bytes := List Char

/-- A metadata mapping, modelled as an association list of key-value pairs.
Go iterates maps in unspecified order; the model fixes insertion order, which
is the deterministic stand-in for one admissible iteration order. -/
abbrev Meta := List (Bytes × Bytes)

/-- Errors surfaced by the Go code (both its own sentinel errors and the
errors coming back from the OS / S3 / WebDav clients). -/
inductive GoErr where
  | fileNotFound    -- store.ErrFileNotFound
  | notFound        -- S3 NoSuchKey / NotFound
  | invalidRange    -- S3 416 on an unsatisfiable Range header
  | negLen          -- Go panic on make([]byte, n) with negative n
  | negOffset       -- os.File.ReadAt error on a negative offset
  | readErr         -- a stream read error other than io.EOF
  | uploadErr (partNumber : Nat)  -- UploadPart failure
  | abortErr        -- AbortMultipartUpload failure
deriving DecidableEq

/-! ## Metadata codec (meta2Bytes / bytes2Meta from the source) -/

/-- meta2Bytes: one `key=value` line per entry, in iteration order. -/
def meta2Bytes (m : Meta) : Bytes :=
  (m.map (fun p => p.1 ++ '=' :: p.2 ++ ['\n'])).flatten

/-- bytes.Split: split a byte list on a separator character; always returns at
least one (possibly empty) piece, like Go's bytes.Split. -/
def splitOnChar (c : Char) : Bytes → List Bytes
  | [] => [[]]
  | x :: xs =>
    if x = c then [] :: splitOnChar c xs
    else
      match splitOnChar c xs with
      | [] => [[x]]
      | y :: ys => (x :: y) :: ys

/-- Go map assignment `meta[k] = v`: replace the binding in place if the key
is present, otherwise append it. -/
def metaInsert (m : Meta) (k v : Bytes) : Meta :=
  if m.any (fun p => p.1 = k) then
    m.map (fun p => if p.1 = k then (k, v) else p)
  else m ++ [(k, v)]

/-- One step of the bytes2Meta loop body: skip empty lines and lines that do
not split into exactly two pieces on `=`. -/
def b2mStep (m : Meta) (line : Bytes) : Meta :=
  if line = [] then m
  else
    match splitOnChar '=' line with
    | [k, v] => metaInsert m k v
    | _ => m

/-- bytes2Meta: split on newlines and fold the line handler over the lines. -/
def bytes2Meta (b : Bytes) : Meta :=
  (splitOnChar '\n' b).foldl b2mStep []

/-- The `for k, v := range meta { cur[k] = v }` merge used by CopyFile:
override wins key by key. -/
def mergeMeta (current override : Meta) : Meta :=
  override.foldl (fun m p => metaInsert m p.1 p.2) current

/-- A key or value is clean when it contains neither `=` nor a newline. -/
def cleanStr (s : Bytes) : Prop := '=' ∉ s ∧ '\n' ∉ s

/-- All keys and values of the mapping are clean. -/
def cleanMeta (m : Meta) : Prop := ∀ p ∈ m, cleanStr p.1 ∧ cleanStr p.2

/-- The keys of the mapping are pairwise distinct (it is a genuine map). -/
def metaKeysNodup (m : Meta) : Prop := (m.map Prod.fst).Nodup

instance (s : Bytes) : Decidable (cleanStr s) := by
  unfold cleanStr; infer_instance

instance (m : Meta) : Decidable (cleanMeta m) := by
  unfold cleanMeta; infer_instance

instance (m : Meta) : Decidable (metaKeysNodup m) := by
  unfold metaKeysNodup; infer_instance

/-! ### Codec lemmas -/

lemma splitOnChar_of_not_mem {c : Char} {xs : Bytes} (h : c ∉ xs) :
    splitOnChar c xs = [xs] := by
  induction xs with
  | nil => rfl
  | cons x xs ih =>
    have hx : x ≠ c := fun hc => h (hc ▸ List.mem_cons_self x xs)
    have hxs : c ∉ xs := fun hc => h (List.mem_cons_of_mem x hc)
    simp [splitOnChar, hx, ih hxs]

lemma splitOnChar_append_cons {c : Char} {xs : Bytes} (ys : Bytes) (h : c ∉ xs) :
    splitOnChar c (xs ++ c :: ys) = xs :: splitOnChar c ys := by
  induction xs with
  | nil => simp [splitOnChar]
  | cons x xs ih =>
    have hx : x ≠ c := fun hc => h (hc ▸ List.mem_cons_self x xs)
    have hxs : c ∉ xs := fun hc => h (List.mem_cons_of_mem x hc)
    simp [splitOnChar, hx, ih hxs]

lemma meta2Bytes_cons (k v : Bytes) (m : Meta) :
    meta2Bytes ((k, v) :: m) = (k ++ '=' :: v) ++ '\n' :: meta2Bytes m := by
  simp [meta2Bytes]

lemma meta2Bytes_ne_nil {m : Meta} (h : m ≠ []) : meta2Bytes m ≠ [] := by
  match m with
  | (k, v) :: t =>
    rw [meta2Bytes_cons]
    rcases k with _ | ⟨a, k⟩ <;> simp

lemma metaInsert_of_not_mem {m : Meta} {k : Bytes} (h : ∀ p ∈ m, p.1 ≠ k) (v : Bytes) :
    metaInsert m k v = m ++ [(k, v)] := by
  have hc : m.any (fun p => decide (p.1 = k)) = false := by
    simp only [List.any_eq_false, decide_eq_true_eq]
    exact h
  simp [metaInsert, hc]

lemma metaInsert_ne_nil (m : Meta) (k v : Bytes) : metaInsert m k v ≠ [] := by
  unfold metaInsert
  split
  · rename_i hany
    match m, hany with
    | p :: t, _ => simp
  · simp

lemma mergeMeta_cons (cur : Meta) (k v : Bytes) (ov : Meta) :
    mergeMeta cur ((k, v) :: ov) = mergeMeta (metaInsert cur k v) ov := rfl

lemma mergeMeta_of_fresh :
    ∀ (ov cur : Meta), (∀ p ∈ ov, ∀ q ∈ cur, q.1 ≠ p.1) → metaKeysNodup ov →
      mergeMeta cur ov = cur ++ ov := by
  intro ov
  induction ov with
  | nil => intro cur _ _; simp [mergeMeta]
  | cons p ov ih =>
    intro cur hfresh hnd
    obtain ⟨k, v⟩ := p
    rw [mergeMeta_cons]
    have hins : metaInsert cur k v = cur ++ [(k, v)] :=
      metaInsert_of_not_mem (fun q hq => hfresh (k, v) (List.mem_cons_self _ _) q hq) v
    have hk_notin : k ∉ ov.map Prod.fst := by
      have := hnd
      simp only [metaKeysNodup, List.map_cons, List.nodup_cons] at this
      exact this.1
    have hnd' : metaKeysNodup ov := by
      have := hnd
      simp only [metaKeysNodup, List.map_cons, List.nodup_cons] at this
      exact this.2
    rw [hins, ih (cur ++ [(k, v)]) ?_ hnd']
    · simp
    · intro q hq r hr
      rcases List.mem_append.mp hr with hr | hr
      · exact hfresh q (List.mem_cons_of_mem _ hq) r hr
      · have : r = (k, v) := by simpa using hr
        subst this
        intro hcontr
        exact hk_notin (List.mem_map.mpr ⟨q, hq, hcontr.symm⟩)

lemma mergeMeta_ne_nil {cur : Meta} (h : cur ≠ []) (ov : Meta) :
    mergeMeta cur ov ≠ [] := by
  induction ov generalizing cur with
  | nil => simpa [mergeMeta]
  | cons p ov ih =>
    rw [show mergeMeta cur (p :: ov) = mergeMeta (metaInsert cur p.1 p.2) ov from rfl]
    exact ih (metaInsert_ne_nil cur p.1 p.2)

lemma bytes2Meta_meta2Bytes_aux :
    ∀ (m : Meta) (acc : Meta), cleanMeta m →
      (splitOnChar '\n' (meta2Bytes m)).foldl b2mStep acc = mergeMeta acc m := by
  intro m
  induction m with
  | nil =>
    intro acc _
    simp [meta2Bytes, splitOnChar, b2mStep, mergeMeta]
  | cons p m ih =>
    intro acc hc
    obtain ⟨k, v⟩ := p
    have hk : cleanStr k := (hc (k, v) (List.mem_cons_self _ _)).1
    have hv : cleanStr v := (hc (k, v) (List.mem_cons_self _ _)).2
    have hline_nl : '\n' ∉ k ++ '=' :: v := by
      intro hmem
      rcases List.mem_append.mp hmem with hmem | hmem
      · exact hk.2 hmem
      · rcases List.mem_cons.mp hmem with hmem | hmem
        · exact absurd hmem.symm (by decide)
        · exact hv.2 hmem
    rw [meta2Bytes_cons, splitOnChar_append_cons (meta2Bytes m) hline_nl, List.foldl_cons]
    have hstep : b2mStep acc (k ++ '=' :: v) = metaInsert acc k v := by
      have hne : k ++ '=' :: v ≠ [] := by
        rcases k with _ | ⟨a, k⟩ <;> simp
      have hsplit : splitOnChar '=' (k ++ '=' :: v) = [k, v] := by
        rw [splitOnChar_append_cons v hk.1, splitOnChar_of_not_mem hv.1]
      simp [b2mStep, hne, hsplit]
    rw [hstep, ih (metaInsert acc k v) (fun q hq => hc q (List.mem_cons_of_mem _ hq)),
        mergeMeta_cons]

/-- Decoding inverts encoding for any genuine mapping whose keys and values
contain neither `=` nor newline. -/
lemma meta_roundtrip (m : Meta) (hc : cleanMeta m) (hnd : metaKeysNodup m) :
    bytes2Meta (meta2Bytes m) = m := by
  unfold bytes2Meta
  rw [bytes2Meta_meta2Bytes_aux m [] hc]
  simpa using mergeMeta_of_fresh m [] (by simp) hnd

lemma splitOnChar_ne_nil (c : Char) (xs : Bytes) : splitOnChar c xs ≠ [] := by
  cases xs with
  | nil => simp [splitOnChar]
  | cons x xs =>
    simp only [splitOnChar]
    split
    · simp
    · split <;> simp

/-- Every piece of a split is separator-free and draws its characters from the
original list. -/
lemma mem_splitOnChar (c : Char) :
    ∀ (xs : Bytes), ∀ piece ∈ splitOnChar c xs, c ∉ piece ∧ ∀ a ∈ piece, a ∈ xs := by
  intro xs
  induction xs with
  | nil =>
    intro piece hp
    simp only [splitOnChar, List.mem_singleton] at hp
    subst hp
    simp
  | cons x xs ih =>
    intro piece hp
    by_cases hx : x = c
    · simp only [splitOnChar, if_pos hx] at hp
      rcases List.mem_cons.mp hp with h | h
      · subst h; simp
      · obtain ⟨h1, h2⟩ := ih piece h
        exact ⟨h1, fun a ha => List.mem_cons_of_mem x (h2 a ha)⟩
    · simp only [splitOnChar, if_neg hx] at hp
      cases hrec : splitOnChar c xs with
      | nil => exact absurd hrec (splitOnChar_ne_nil c xs)
      | cons y ys =>
        rw [hrec] at hp
        rcases List.mem_cons.mp hp with h | h
        · subst h
          have hy := ih y (hrec ▸ List.mem_cons_self y ys)
          refine ⟨?_, ?_⟩
          · intro hc
            rcases List.mem_cons.mp hc with h | h
            · exact hx h.symm
            · exact hy.1 h
          · intro a ha
            rcases List.mem_cons.mp ha with h | h
            · subst h; exact List.mem_cons_self a xs
            · exact List.mem_cons_of_mem x (hy.2 a h)
        · have := ih piece (hrec ▸ List.mem_cons_of_mem y h)
          exact ⟨this.1, fun a ha => List.mem_cons_of_mem x (this.2 a ha)⟩

lemma cleanMeta_metaInsert {m : Meta} {k v : Bytes}
    (hm : cleanMeta m) (hk : cleanStr k) (hv : cleanStr v) :
    cleanMeta (metaInsert m k v) := by
  unfold metaInsert
  split
  · intro p hp
    rcases List.mem_map.mp hp with ⟨q, hq, hpq⟩
    by_cases h : q.1 = k
    · rw [if_pos h] at hpq
      rw [← hpq]
      exact ⟨hk, hv⟩
    · rw [if_neg h] at hpq
      rw [← hpq]
      exact hm q hq
  · intro p hp
    rcases List.mem_append.mp hp with h | h
    · exact hm p h
    · have : p = (k, v) := by simpa using h
      rw [this]
      exact ⟨hk, hv⟩

lemma keysNodup_metaInsert {m : Meta} (k v : Bytes) (h : metaKeysNodup m) :
    metaKeysNodup (metaInsert m k v) := by
  unfold metaInsert
  split
  · unfold metaKeysNodup at *
    have hkeys : (m.map (fun p => if p.1 = k then (k, v) else p)).map Prod.fst
        = m.map Prod.fst := by
      rw [List.map_map]
      apply List.map_congr_left
      intro p _
      by_cases hpk : p.1 = k
      · simp [hpk]
      · simp [hpk]
    rw [hkeys]
    exact h
  · rename_i hany
    have hk_notin : k ∉ m.map Prod.fst := by
      simp only [List.any_eq_true, decide_eq_true_eq, not_exists, not_and] at hany
      intro hmem
      rcases List.mem_map.mp hmem with ⟨q, hq, hqk⟩
      exact hany q hq hqk
    unfold metaKeysNodup at *
    rw [List.map_append]
    simp only [List.map_cons, List.map_nil]
    rw [List.nodup_append]
    exact ⟨h, List.nodup_singleton k, by
      intro a ha hb
      rw [List.mem_singleton.mp hb] at ha
      exact hk_notin ha⟩

lemma cleanMeta_b2mStep {acc : Meta} {l : Bytes}
    (hacc : cleanMeta acc) (hnl : '\n' ∉ l) : cleanMeta (b2mStep acc l) := by
  unfold b2mStep
  split
  · exact hacc
  · split
    · rename_i k v heq
      have hk := mem_splitOnChar '=' l k (by rw [heq]; simp)
      have hv := mem_splitOnChar '=' l v (by rw [heq]; simp)
      exact cleanMeta_metaInsert hacc
        ⟨hk.1, fun hmem => hnl (hk.2 '\n' hmem)⟩
        ⟨hv.1, fun hmem => hnl (hv.2 '\n' hmem)⟩
    · exact hacc

lemma keysNodup_b2mStep {acc : Meta} (l : Bytes) (hacc : metaKeysNodup acc) :
    metaKeysNodup (b2mStep acc l) := by
  unfold b2mStep
  split
  · exact hacc
  · split
    · exact keysNodup_metaInsert _ _ hacc
    · exact hacc

lemma cleanMeta_bytes2Meta (b : Bytes) : cleanMeta (bytes2Meta b) := by
  unfold bytes2Meta
  have : ∀ (lines : List Bytes) (acc : Meta), cleanMeta acc →
      (∀ l ∈ lines, '\n' ∉ l) → cleanMeta (lines.foldl b2mStep acc) := by
    intro lines
    induction lines with
    | nil => intro acc h _; simpa
    | cons l lines ih =>
      intro acc hacc hnl
      rw [List.foldl_cons]
      exact ih _ (cleanMeta_b2mStep hacc (hnl l (List.mem_cons_self l lines)))
        (fun q hq => hnl q (List.mem_cons_of_mem l hq))
  refine this _ [] (by intro p hp; exact absurd hp (List.not_mem_nil p)) ?_
  intro l hl
  exact (mem_splitOnChar '\n' b l hl).1

lemma keysNodup_bytes2Meta (b : Bytes) : metaKeysNodup (bytes2Meta b) := by
  unfold bytes2Meta
  have : ∀ (lines : List Bytes) (acc : Meta), metaKeysNodup acc →
      metaKeysNodup (lines.foldl b2mStep acc) := by
    intro lines
    induction lines with
    | nil => intro acc h; simpa
    | cons l lines ih =>
      intro acc hacc
      rw [List.foldl_cons]
      exact ih _ (keysNodup_b2mStep l hacc)
  exact this _ [] (by simp [metaKeysNodup])

lemma cleanMeta_mergeMeta {cur ov : Meta} (hc : cleanMeta cur) (ho : cleanMeta ov) :
    cleanMeta (mergeMeta cur ov) := by
  induction ov generalizing cur with
  | nil => simpa [mergeMeta]
  | cons p ov ih =>
    rw [show mergeMeta cur (p :: ov) = mergeMeta (metaInsert cur p.1 p.2) ov from rfl]
    exact ih
      (cleanMeta_metaInsert hc (ho p (List.mem_cons_self p ov)).1
        (ho p (List.mem_cons_self p ov)).2)
      (fun q hq => ho q (List.mem_cons_of_mem p hq))

lemma keysNodup_mergeMeta {cur : Meta} (ov : Meta) (h : metaKeysNodup cur) :
    metaKeysNodup (mergeMeta cur ov) := by
  induction ov generalizing cur with
  | nil => simpa [mergeMeta]
  | cons p ov ih =>
    rw [show mergeMeta cur (p :: ov) = mergeMeta (metaInsert cur p.1 p.2) ov from rfl]
    exact ih (keysNodup_metaInsert p.1 p.2 h)

/-! ## Filesystem state shared by the Local and WebDav backends

A flat map from path to byte content; writes shadow earlier entries, reads
take the most recent write, mirroring os.WriteFile / gowebdav Write. -/

/-- Filesystem (or WebDav server) state: newest write first. -/
abbrev FS := List (String × Bytes)

/-- Overwrite-or-create a file. -/
def fsSet (fs : FS) (p : String) (c : Bytes) : FS := (p, c) :: fs

/-- Look a file up; `none` models the OS "no such file" condition. -/
def fsGet (fs : FS) (p : String) : Option Bytes :=
  (fs.find? (fun e => e.1 == p)).map Prod.snd

/-- The sidecar metadata path: `path + META_PREFIX` with META_PREFIX ".meta". -/
def metaPath (p : String) : String := p ++ ".meta"

lemma fsGet_set_self (fs : FS) (p : String) (c : Bytes) :
    fsGet (fsSet fs p c) p = some c := by
  simp [fsGet, fsSet, List.find?]

lemma fsGet_set_other (fs : FS) {p q : String} (hne : q ≠ p) (c : Bytes) :
    fsGet (fsSet fs p c) q = fsGet fs q := by
  have : (p == q) = false := beq_eq_false_iff_ne.mpr (fun h => hne h.symm)
  simp [fsGet, fsSet, List.find?, this]

lemma metaPath_ne (p : String) : metaPath p ≠ p := by
  intro h
  have hlen : (metaPath p).length = p.length := by rw [h]
  rw [metaPath, String.length_append] at hlen
  have h5 : ".meta".length = 5 := rfl
  omega

/-! ## Local backend (local.go) -/

/-- os.Stat, reduced to the size information the code consumes. -/
def osStat (fs : FS) (p : String) : Except GoErr Nat :=
  match fsGet fs p with
  | some c => .ok c.length
  | none => .error .fileNotFound

/-- Local.IsExist: stat succeeds and the size is strictly positive. -/
def localIsExist (fs : FS) (p : String) : Bool :=
  match osStat fs p with
  | .ok n => decide (0 < n)
  | .error _ => false

/-- Local.CreateFile: with a non-nil metadata map only the sidecar is
written; otherwise the primary content is written. -/
def localCreateFile (fs : FS) (p : String) (file : Bytes) (meta : Option Meta) : FS :=
  match meta with
  | some m => fsSet fs (metaPath p) (meta2Bytes m)
  | none => fsSet fs p file

/-- Local.GetFile, returning Go's (content, error) pair. -/
def localGetFile (fs : FS) (p : String) : Option Bytes × Option GoErr :=
  if localIsExist fs p then (fsGet fs p, none) else (none, none)

/-- Local.Stat: stat the primary, then decode whatever GetFile finds at the
sidecar path (nil bytes decode to the empty mapping). -/
def localStat (fs : FS) (p : String) : Except GoErr (Nat × Meta) :=
  match osStat fs p with
  | .error _ => .error .fileNotFound
  | .ok n => .ok (n, bytes2Meta ((localGetFile fs (metaPath p)).1.getD []))

/-- Local.CopyFile: copy the primary; then, if the source sidecar exists with
positive size, merge the override into its decoded mapping and write the
result to the destination sidecar; otherwise write the override alone when it
is non-nil. -/
def localCopyFile (fs : FS) (src dst : String) (meta : Option Meta) : Except GoErr FS :=
  match fsGet fs src with
  | none => .error .fileNotFound
  | some c =>
    let fs1 := fsSet fs dst c
    match fsGet fs1 (metaPath src) with
    | some mb =>
      if 0 < mb.length then
        .ok (fsSet fs1 (metaPath dst)
          (meta2Bytes (mergeMeta (bytes2Meta mb) (meta.getD []))))
      else
        match meta with
        | some m => .ok (fsSet fs1 (metaPath dst) (meta2Bytes m))
        | none => .ok fs1
    | none =>
      match meta with
      | some m => .ok (fsSet fs1 (metaPath dst) (meta2Bytes m))
      | none => .ok fs1

/-- os.File.ReadAt into a zero-initialised buffer of length `len`: a short
read leaves the zero padding in place and only raises io.EOF, which the
caller ignores. -/
def readAtBuf (c : Bytes) (offset len : Nat) : Bytes :=
  let avail := (c.drop offset).take len
  avail ++ List.replicate (len - avail.length) (Char.ofNat 0)

/-- Local.GetFilePartially: a negative length is replaced by size - offset;
a negative buffer length would make make([]byte, n) panic and a negative
offset makes ReadAt fail, both modelled as errors. -/
def localGetFilePartially (fs : FS) (p : String) (offset length : Int) :
    Option Bytes × Option GoErr :=
  if localIsExist fs p then
    match fsGet fs p with
    | some c =>
      let len : Int := if length < 0 then (c.length : Int) - offset else length
      if len < 0 then (none, some .negLen)
      else if offset < 0 then (none, some .negOffset)
      else (some (readAtBuf c offset.toNat len.toNat), none)
    | none => (none, none)
  else (none, none)

/-- Local.FileReader: offset and length are accepted but never used; the
reader is os.Open's, i.e. the whole content starting at byte 0. -/
def localFileReader (fs : FS) (p : String) (offset length : Int) :
    Option Bytes × Option GoErr :=
  if localIsExist fs p then (fsGet fs p, none) else (none, none)

/-! ## WebDav backend -/

/-- WebDav.IsExist: client.Stat succeeds and the size is strictly positive. -/
def webdavIsExist (fs : FS) (p : String) : Bool :=
  match osStat fs p with
  | .ok n => decide (0 < n)
  | .error _ => false

/-- WebDav.CreateFile: with a non-nil metadata map the sidecar is written
first and then the primary content is written as well. -/
def webdavCreateFile (fs : FS) (p : String) (file : Bytes) (meta : Option Meta) : FS :=
  let fs1 := match meta with
    | some m => fsSet fs (metaPath p) (meta2Bytes m)
    | none => fs
  fsSet fs1 p file

/-- WebDav.GetFile, returning Go's (content, error) pair. -/
def webdavGetFile (fs : FS) (p : String) : Option Bytes × Option GoErr :=
  if webdavIsExist fs p then (fsGet fs p, none) else (none, none)

/-- WebDav.CopyFile: if the source sidecar exists (non-zero size), merge the
override into its decoded mapping and write the destination sidecar; then
copy the primary content. -/
def webdavCopyFile (fs : FS) (src dst : String) (meta : Option Meta) : Except GoErr FS :=
  let fs1 :=
    if webdavIsExist fs (metaPath src) then
      fsSet fs (metaPath dst)
        (meta2Bytes (mergeMeta
          (bytes2Meta ((webdavGetFile fs (metaPath src)).1.getD [])) (meta.getD [])))
    else fs
  match fsGet fs1 src with
  | none => .error .fileNotFound
  | some c => .ok (fsSet fs1 dst c)

/-- WebDav.Stat: stat the primary, and decode the sidecar only when IsExist
reports it (otherwise the metadata comes back nil). -/
def webdavStat (fs : FS) (p : String) : Except GoErr (Nat × Option Meta) :=
  match fsGet fs p with
  | none => .error .fileNotFound
  | some c =>
    if webdavIsExist fs (metaPath p) then
      .ok (c.length, some (bytes2Meta ((fsGet fs (metaPath p)).getD [])))
    else
      .ok (c.length, none)

/-! ## Null (Empty) backend -/

/-- Empty.GetFile: always (nil, nil). -/
def emptyGetFile (p : String) : Option Bytes × Option GoErr := (none, none)

/-- Empty.CreateFile: a no-op returning success. -/
def emptyCreateFile (p : String) (file : Bytes) (meta : Option Meta) : Option GoErr := none

/-- Empty.Stat: (nil FileInfo, nil metadata, nil error). -/
def emptyStat (p : String) : Option (Nat × Meta) × Option GoErr := (none, none)

/-! ## S3 backend -/

/-- An object in the bucket: its bytes plus its native metadata attribute
map (aws.StringMap of a nil Go map is the empty map). -/
structure S3Obj where
  content : Bytes
  meta : Meta
deriving DecidableEq

/-- Bucket state: newest put first. -/
abbrev S3S := List (String × S3Obj)

def s3Set (s : S3S) (p : String) (o : S3Obj) : S3S := (p, o) :: s

def s3Get (s : S3S) (p : String) : Option S3Obj :=
  (s.find? (fun e => e.1 == p)).map Prod.snd

lemma s3Get_set_self (s : S3S) (p : String) (o : S3Obj) :
    s3Get (s3Set s p o) p = some o := by
  simp [s3Get, s3Set, List.find?]

/-- S3.IsExist: HeadObject succeeds exactly when the key is present. -/
def s3IsExist (s : S3S) (p : String) : Bool := (s3Get s p).isSome

/-- S3.CreateFile: PutObject with the body and the (possibly nil) metadata. -/
def s3CreateFile (s : S3S) (p : String) (file : Bytes) (meta : Option Meta) : S3S :=
  s3Set s p ⟨file, meta.getD []⟩

/-- S3.Stat: HeadObject; absent keys surface the client's not-found error. -/
def s3Stat (s : S3S) (p : String) : Except GoErr (Nat × Meta) :=
  match s3Get s p with
  | none => .error .notFound
  | some o => .ok (o.content.length, o.meta)

/-- S3.CopyFile: HeadObject on the source, merge the override into its
native metadata, CopyObject with MetadataDirective REPLACE. -/
def s3CopyFile (s : S3S) (src dst : String) (meta : Option Meta) : Except GoErr S3S :=
  match s3Get s src with
  | none => .error .notFound
  | some o => .ok (s3Set s dst ⟨o.content, mergeMeta o.meta (meta.getD [])⟩)

/-- S3.FileReader: GetObject with a Range header, "bytes=offset-end" when
length is positive and the open-ended "bytes=offset-" otherwise. The range
is resolved with the object store's RFC 9110 semantics (the code links that
RFC): a start at or past the object's end is unsatisfiable, an end past the
object's end truncates. -/
def s3FileReader (s : S3S) (p : String) (offset length : Int) : Except GoErr Bytes :=
  match s3Get s p with
  | none => .error .notFound
  | some o =>
    if offset < 0 then .error .invalidRange
    else if (o.content.length : Int) ≤ offset then .error .invalidRange
    else if 0 < length then .ok ((o.content.drop offset.toNat).take length.toNat)
    else .ok (o.content.drop offset.toNat)

/-- S3.GetFilePartially: FileReader then io.ReadAll. -/
def s3GetFilePartially (s : S3S) (p : String) (offset length : Int) : Except GoErr Bytes :=
  s3FileReader s p offset length

/-- S3.GetFile: FileReader with offset 0, length 0, then io.ReadAll. -/
def s3GetFile (s : S3S) (p : String) : Except GoErr Bytes :=
  s3FileReader s p 0 0

/-! ## S3 chunked upload (StreamToFileWithContext) -/

/-- The fixed read-buffer size: 1024*1024*5 bytes (5 MiB). -/
def chunkSize : Nat := 1024 * 1024 * 5

/-- One result of stream.Read on the 5 MiB buffer: either n bytes (n = 0
terminates the loop) or an error other than io.EOF. -/
inductive Ev where
  | chunk (bs : Bytes)
  | rerr
deriving DecidableEq

/-- The result of one StreamToFile call: the surfaced error, the parts that
were uploaded (part number, bytes), how many times AbortMultipartUpload was
invoked, and whether CompleteMultipartUpload was reached. -/
structure S3Out where
  err : Option GoErr
  parts : List (Nat × Bytes)
  abortCalls : Nat
  completed : Bool
deriving DecidableEq

/-- The upload loop of StreamToFileWithContext. A read error returns it at
once; a zero-length read breaks to the completion call; an upload failure
calls abort and surfaces the upload error, unless the abort itself fails, in
which case the abort error is surfaced instead. `uploadFails` and
`abortFails` stand for the network outcomes of UploadPart and
AbortMultipartUpload; CompleteMultipartUpload is taken to succeed. -/
def s3Loop : List Ev → (Nat → Bool) → Bool → Nat → List (Nat × Bytes) → S3Out
  | [], _, _, _, acc => ⟨none, acc, 0, true⟩
  | .rerr :: _, _, _, _, acc => ⟨some .readErr, acc, 0, false⟩
  | .chunk bs :: rest, uploadFails, abortFails, pn, acc =>
    if bs = [] then ⟨none, acc, 0, true⟩
    else if uploadFails pn then
      if abortFails then ⟨some .abortErr, acc, 1, false⟩
      else ⟨some (.uploadErr pn), acc, 1, false⟩
    else s3Loop rest uploadFails abortFails (pn + 1) (acc ++ [(pn, bs)])

/-- StreamToFile over an arbitrary sequence of read results, starting from
part number 1 with no accumulated parts. -/
def s3StreamToFileEv (events : List Ev) (uploadFails : Nat → Bool) (abortFails : Bool) :
    S3Out :=
  s3Loop events uploadFails abortFails 1 []

/-- The successive read results an in-memory byte source yields through the
5 MiB buffer: full buffers until fewer than 5 MiB remain, then the remainder,
then the terminating zero-length read. -/
def chunkList (data : Bytes) : List Bytes :=
  if data = [] then []
  else data.take chunkSize :: chunkList (data.drop chunkSize)
termination_by data.length
decreasing_by
  rename_i h
  have : 0 < data.length := List.length_pos.mpr h
  simp only [List.length_drop]
  have hc : 0 < chunkSize := by decide
  omega

/-- StreamToFile on an errorless in-memory byte source. -/
def s3StreamToFile (data : Bytes) : S3Out :=
  s3Loop ((chunkList data).map Ev.chunk) (fun _ => false) false 1 []

/-- The object CompleteMultipartUpload assembles: the concatenation of the
submitted parts in the submitted (part-number) order, available only when
the completion call was reached. -/
def s3FinalObject (out : S3Out) : Option Bytes :=
  if out.completed then some ((out.parts.map Prod.snd).flatten) else none

/-- Part numbering of a chunk sequence, counting up from `n`. -/
def numberFrom : Nat → List Bytes → List (Nat × Bytes)
  | _, [] => []
  | n, c :: cs => (n, c) :: numberFrom (n + 1) cs

/-! ### Chunking lemmas -/

lemma chunkList_nil : chunkList [] = [] := by
  rw [chunkList]
  simp

lemma chunkList_cons {data : Bytes} (h : data ≠ []) :
    chunkList data = data.take chunkSize :: chunkList (data.drop chunkSize) := by
  rw [chunkList]
  simp [h]

lemma chunkList_small {data : Bytes} (h : data ≠ []) (hle : data.length ≤ chunkSize) :
    chunkList data = [data] := by
  rw [chunkList_cons h, List.take_of_length_le hle, List.drop_eq_nil_of_le hle,
    chunkList_nil]

lemma chunkList_ne_nil {data : Bytes} (h : data ≠ []) : chunkList data ≠ [] := by
  rw [chunkList_cons h]
  simp

lemma chunkList_flatten (data : Bytes) : (chunkList data).flatten = data := by
  by_cases h : data = []
  · subst h; rw [chunkList_nil]; rfl
  · rw [chunkList_cons h]
    have ih := chunkList_flatten (data.drop chunkSize)
    rw [List.flatten_cons, ih, List.take_append_drop]
termination_by data.length
decreasing_by
  have : 0 < data.length := List.length_pos.mpr h
  have hc : 0 < chunkSize := by decide
  simp only [List.length_drop]
  omega

lemma chunkList_mem_ne_nil {data : Bytes} :
    ∀ c ∈ chunkList data, c ≠ [] := by
  by_cases h : data = []
  · subst h; rw [chunkList_nil]; intro c hc; exact absurd hc (List.not_mem_nil c)
  · rw [chunkList_cons h]
    intro c hc
    rcases List.mem_cons.mp hc with hc | hc
    · subst hc
      have hlen : 0 < data.length := List.length_pos.mpr h
      have hcs : 0 < chunkSize := by decide
      intro hnil
      have := congrArg List.length hnil
      simp only [List.length_take, List.length_nil] at this
      omega
    · exact chunkList_mem_ne_nil c hc
termination_by data.length
decreasing_by
  have : 0 < data.length := List.length_pos.mpr h
  have hc : 0 < chunkSize := by decide
  simp only [List.length_drop]
  omega

lemma chunkList_mem_le {data : Bytes} :
    ∀ c ∈ chunkList data, c.length ≤ chunkSize := by
  by_cases h : data = []
  · subst h; rw [chunkList_nil]; intro c hc; exact absurd hc (List.not_mem_nil c)
  · rw [chunkList_cons h]
    intro c hc
    rcases List.mem_cons.mp hc with hc | hc
    · subst hc
      simp [List.length_take]
    · exact chunkList_mem_le c hc
termination_by data.length
decreasing_by
  have : 0 < data.length := List.length_pos.mpr h
  have hc : 0 < chunkSize := by decide
  simp only [List.length_drop]
  omega

lemma chunkList_dropLast_full {data : Bytes} :
    ∀ c ∈ (chunkList data).dropLast, c.length = chunkSize := by
  by_cases h : data = []
  · subst h; rw [chunkList_nil]; intro c hc; exact absurd hc (List.not_mem_nil c)
  · rw [chunkList_cons h]
    by_cases hle : data.length ≤ chunkSize
    · rw [List.drop_eq_nil_of_le hle, chunkList_nil]
      intro c hc
      exact absurd hc (List.not_mem_nil c)
    · have hdrop : data.drop chunkSize ≠ [] := by
        intro hnil
        have := congrArg List.length hnil
        simp only [List.length_drop, List.length_nil] at this
        omega
      rw [List.dropLast_cons_of_ne_nil (chunkList_ne_nil hdrop)]
      intro c hc
      rcases List.mem_cons.mp hc with hc | hc
      · subst hc
        simp only [List.length_take]
        omega
      · exact chunkList_dropLast_full c hc
termination_by data.length
decreasing_by
  have : 0 < data.length := List.length_pos.mpr h
  have hc : 0 < chunkSize := by decide
  simp only [List.length_drop]
  omega

/-! ### Loop lemmas -/

lemma numberFrom_map_fst : ∀ (n : Nat) (cs : List Bytes),
    (numberFrom n cs).map Prod.fst = List.range' n cs.length := by
  intro n cs
  induction cs generalizing n with
  | nil => simp [numberFrom]
  | cons c cs ih =>
    simp only [numberFrom, List.map_cons, List.length_cons, List.range'_succ]
    rw [ih]

lemma numberFrom_map_snd : ∀ (n : Nat) (cs : List Bytes),
    (numberFrom n cs).map Prod.snd = cs := by
  intro n cs
  induction cs generalizing n with
  | nil => simp [numberFrom]
  | cons c cs ih =>
    simp only [numberFrom, List.map_cons]
    rw [ih]

lemma numberFrom_length : ∀ (n : Nat) (cs : List Bytes),
    (numberFrom n cs).length = cs.length := by
  intro n cs
  induction cs generalizing n with
  | nil => rfl
  | cons c cs ih => simp [numberFrom, ih]

/-- When no read and no upload ever fails, the loop uploads every chunk, in
order, with consecutive part numbers, and reaches completion. -/
lemma s3Loop_no_failure (a : Bool) :
    ∀ (cs : List Bytes) (pn : Nat) (acc : List (Nat × Bytes)),
      (∀ c ∈ cs, c ≠ []) →
      s3Loop (cs.map Ev.chunk) (fun _ => false) a pn acc
        = ⟨none, acc ++ numberFrom pn cs, 0, true⟩ := by
  intro cs
  induction cs with
  | nil => intro pn acc _; simp [s3Loop, numberFrom]
  | cons c cs ih =>
    intro pn acc hne
    have hc : c ≠ [] := hne c (List.mem_cons_self c cs)
    simp only [List.map_cons, s3Loop, if_neg hc, Bool.false_eq_true, if_false]
    rw [ih (pn + 1) (acc ++ [(pn, c)]) (fun q hq => hne q (List.mem_cons_of_mem c hq))]
    simp [numberFrom]

/-- Error-path invariants of the upload loop: completion exactly on success,
no abort on a read error, exactly one abort on an upload failure, and an
abort failure surfaced in place of the upload error. -/
lemma s3Loop_spec (u : Nat → Bool) (a : Bool) :
    ∀ (events : List Ev) (pn : Nat) (acc : List (Nat × Bytes)),
      ((s3Loop events u a pn acc).completed = true ↔ (s3Loop events u a pn acc).err = none) ∧
      ((s3Loop events u a pn acc).err = some .readErr →
        (s3Loop events u a pn acc).abortCalls = 0) ∧
      (∀ k, (s3Loop events u a pn acc).err = some (.uploadErr k) →
        (s3Loop events u a pn acc).abortCalls = 1 ∧ u k = true ∧ a = false) ∧
      ((s3Loop events u a pn acc).err = some .abortErr →
        (s3Loop events u a pn acc).abortCalls = 1 ∧ a = true) := by
  intro events
  induction events with
  | nil => intro pn acc; simp [s3Loop]
  | cons e rest ih =>
    intro pn acc
    cases e with
    | rerr => simp [s3Loop]
    | chunk bs =>
      by_cases hbs : bs = []
      · simp [s3Loop, hbs]
      · by_cases hu : u pn = true
        · cases ha : a with
          | false =>
            refine ⟨?_, ?_, ?_, ?_⟩ <;>
              simp_all [s3Loop]
          | true =>
            refine ⟨?_, ?_, ?_, ?_⟩ <;>
              simp_all [s3Loop]
        · have hrec := ih (pn + 1) (acc ++ [(pn, bs)])
          simp only [s3Loop, if_neg hbs, hu, Bool.false_eq_true, if_false]
          exact hrec

/-! ## Claim theorems -/

/-- C9: for every string-to-string mapping whose keys and values contain
neither `=` nor a newline, decoding the encoding returns the original
mapping: bytes2Meta (meta2Bytes m) = m. -/
theorem claim_C9_codec_roundtrip (m : Meta) (hc : cleanMeta m) (hnd : metaKeysNodup m) :
    bytes2Meta (meta2Bytes m) = m :=
  meta_roundtrip m hc hnd

theorem claim_C9_witness :
    bytes2Meta (meta2Bytes [("owner".toList, "bob".toList)])
      = [("owner".toList, "bob".toList)] :=
  claim_C9_codec_roundtrip [("owner".toList, "bob".toList)] (by decide) (by decide)

/-- C7: for the local and WebDav backends, IsExist is true exactly when the
path is present with non-zero size; an existing zero-size file reports
false. -/
theorem claim_C7_isExist (fs : FS) (p : String) :
    (localIsExist fs p = true ↔ ∃ c, fsGet fs p = some c ∧ 0 < c.length) ∧
    (webdavIsExist fs p = true ↔ ∃ c, fsGet fs p = some c ∧ 0 < c.length) ∧
    (∀ c, fsGet fs p = some c → c.length = 0 →
      localIsExist fs p = false ∧ webdavIsExist fs p = false) := by
  have hL : localIsExist fs p = true ↔ ∃ c, fsGet fs p = some c ∧ 0 < c.length := by
    unfold localIsExist osStat
    cases h : fsGet fs p with
    | none => simp
    | some c => simp
  refine ⟨hL, ?_, ?_⟩
  · exact hL
  · intro c hc hc0
    constructor <;> simp [localIsExist, webdavIsExist, osStat, hc, hc0]

theorem claim_C7_witness :
    localIsExist [("a", ([] : Bytes))] "a" = false ∧
    webdavIsExist [("a", ([] : Bytes))] "a" = false :=
  (claim_C7_isExist [("a", [])] "a").2.2 [] (by decide) rfl

/-- C10: the local backend's FileReader ignores offset and length entirely:
it returns the same reader for all arguments, namely the whole content from
byte 0 when the file exists and is non-empty, and (nil, nil) for an absent
or empty file. -/
theorem claim_C10_fileReader (fs : FS) (p : String) (o1 l1 o2 l2 : Int) :
    localFileReader fs p o1 l1 = localFileReader fs p o2 l2 ∧
    (localIsExist fs p = true → localFileReader fs p o1 l1 = (fsGet fs p, none)) ∧
    (localIsExist fs p = false → localFileReader fs p o1 l1 = (none, none)) := by
  refine ⟨rfl, ?_, ?_⟩ <;> intro h <;> simp [localFileReader, h]

theorem claim_C10_witness :
    localFileReader [("a", ['x'])] "a" 7 9 = (fsGet [("a", ['x'])] "a", none) :=
  (claim_C10_fileReader [("a", ['x'])] "a" 7 9 0 0).2.1 (by decide)

/-- C6 counterexample: the local, WebDav and null backends return
(nil, nil) — no error at all — for GetFile of an absent path, against the
claim's uniform not-found error. -/
theorem claim_C6_counterexample :
    localGetFile [] "p" = (none, none) ∧
    webdavGetFile [] "p" = (none, none) ∧
    emptyGetFile "p" = (none, none) :=
  ⟨rfl, rfl, rfl⟩

/-- C6 amended: only the object-store backend returns a not-found error for
GetFile of an absent path; the local, WebDav and null backends return nil
content with nil error. -/
theorem claim_C6_amended (fs : FS) (s : S3S) (p : String)
    (hf : fsGet fs p = none) (hs : s3Get s p = none) :
    localGetFile fs p = (none, none) ∧
    webdavGetFile fs p = (none, none) ∧
    emptyGetFile p = (none, none) ∧
    s3GetFile s p = .error .notFound := by
  refine ⟨?_, ?_, rfl, ?_⟩
  · simp [localGetFile, localIsExist, osStat, hf]
  · simp [webdavGetFile, webdavIsExist, osStat, hf]
  · simp [s3GetFile, s3FileReader, hs]

theorem claim_C6_witness :
    localGetFile [("q", ['x'])] "p" = (none, none) ∧
    webdavGetFile [("q", ['x'])] "p" = (none, none) ∧
    emptyGetFile "p" = (none, none) ∧
    s3GetFile [] "p" = .error .notFound :=
  claim_C6_amended [("q", ['x'])] [] "p" (by decide) rfl

/-- C3 counterexample: the WebDav backend's CreateFile with a non-nil
metadata mapping writes the primary content too, in the same call, against
the claim that only the sidecar is written. -/
theorem claim_C3_counterexample :
    fsGet (webdavCreateFile [] "p" "x".toList (some [("k".toList, "v".toList)])) "p"
      = some "x".toList :=
  rfl

/-- C3 amended: with a non-nil metadata mapping, the local backend writes
only the sidecar at path + ".meta" and leaves the primary path untouched,
while the WebDav backend writes the sidecar and then the primary content as
well — the metadata/content exclusivity holds only for the local backend. -/
theorem claim_C3_amended (fs : FS) (p : String) (file : Bytes) (m : Meta) :
    fsGet (localCreateFile fs p file (some m)) p = fsGet fs p ∧
    fsGet (localCreateFile fs p file (some m)) (metaPath p) = some (meta2Bytes m) ∧
    fsGet (webdavCreateFile fs p file (some m)) p = some file ∧
    fsGet (webdavCreateFile fs p file (some m)) (metaPath p) = some (meta2Bytes m) := by
  refine ⟨?_, ?_, ?_, ?_⟩
  · exact fsGet_set_other fs (Ne.symm (metaPath_ne p)) (meta2Bytes m)
  · exact fsGet_set_self fs (metaPath p) (meta2Bytes m)
  · exact fsGet_set_self _ p file
  · rw [show webdavCreateFile fs p file (some m)
        = fsSet (fsSet fs (metaPath p) (meta2Bytes m)) p file from rfl,
      fsGet_set_other _ (metaPath_ne p) file,
      fsGet_set_self]

lemma s3StreamToFile_eq (data : Bytes) :
    s3StreamToFile data = ⟨none, numberFrom 1 (chunkList data), 0, true⟩ := by
  unfold s3StreamToFile
  rw [s3Loop_no_failure false (chunkList data) 1 [] chunkList_mem_ne_nil]
  simp

/-- C1: the object-store StreamToFile reads its source in fixed 5 MiB
chunks (every part but possibly the last is exactly chunkSize bytes, none is
empty), uploads them with strictly increasing part numbers starting at 1,
reaches the completion call, and the assembled object is byte-identical to
the input; inputs of exactly chunkSize, chunkSize - 1 and chunkSize + 1
bytes produce 1, 1 and 2 parts. -/
theorem claim_C1_stream_chunks (data : Bytes) :
    (s3StreamToFile data).err = none ∧
    (s3StreamToFile data).completed = true ∧
    (s3StreamToFile data).parts.map Prod.fst
      = List.range' 1 (s3StreamToFile data).parts.length ∧
    (∀ pt ∈ (s3StreamToFile data).parts, pt.2 ≠ [] ∧ pt.2.length ≤ chunkSize) ∧
    (∀ c ∈ ((s3StreamToFile data).parts.map Prod.snd).dropLast, c.length = chunkSize) ∧
    s3FinalObject (s3StreamToFile data) = some data ∧
    (s3StreamToFile (List.replicate chunkSize 'a')).parts.length = 1 ∧
    (s3StreamToFile (List.replicate (chunkSize - 1) 'a')).parts.length = 1 ∧
    (s3StreamToFile (List.replicate (chunkSize + 1) 'a')).parts.length = 2 := by
  have hcount : ∀ (d : Bytes), (s3StreamToFile d).parts.length = (chunkList d).length := by
    intro d
    rw [s3StreamToFile_eq, numberFrom_length]
  have hcpos : 0 < chunkSize := by decide
  refine ⟨?_, ?_, ?_, ?_, ?_, ?_, ?_, ?_, ?_⟩
  · rw [s3StreamToFile_eq]
  · rw [s3StreamToFile_eq]
  · rw [s3StreamToFile_eq]
    exact numberFrom_map_fst 1 (chunkList data) ▸ (by rw [numberFrom_length])
  · intro pt hpt
    rw [s3StreamToFile_eq] at hpt
    have hsnd : pt.2 ∈ chunkList data := by
      have := List.mem_map_of_mem Prod.snd hpt
      rwa [numberFrom_map_snd] at this
    exact ⟨chunkList_mem_ne_nil pt.2 hsnd, chunkList_mem_le pt.2 hsnd⟩
  · intro c hc
    rw [s3StreamToFile_eq] at hc
    simp only [numberFrom_map_snd] at hc
    exact chunkList_dropLast_full c hc
  · rw [s3StreamToFile_eq]
    simp only [s3FinalObject, numberFrom_map_snd, if_true]
    rw [chunkList_flatten]
  · rw [hcount]
    have hne : List.replicate chunkSize 'a' ≠ [] := by
      intro h
      have := congrArg List.length h
      simp only [List.length_replicate, List.length_nil] at this
      omega
    rw [chunkList_small hne (by rw [List.length_replicate])]
    rfl
  · rw [hcount]
    have hne : List.replicate (chunkSize - 1) 'a' ≠ [] := by
      intro h
      have := congrArg List.length h
      simp only [List.length_replicate, List.length_nil] at this
      revert this
      decide
    rw [chunkList_small hne (by rw [List.length_replicate]; omega)]
    rfl
  · rw [hcount]
    have hne : List.replicate (chunkSize + 1) 'a' ≠ [] := by
      intro h
      have := congrArg List.length h
      simp only [List.length_replicate, List.length_nil] at this
      omega
    rw [chunkList_cons hne, List.drop_replicate]
    have hne1 : List.replicate (chunkSize + 1 - chunkSize) 'a' ≠ [] := by
      intro h
      have := congrArg List.length h
      simp only [List.length_replicate, List.length_nil] at this
      omega
    rw [chunkList_small hne1 (by rw [List.length_replicate]; omega)]
    rfl

theorem claim_C1_witness :
    s3FinalObject (s3StreamToFile ['x']) = some ['x'] :=
  (claim_C1_stream_chunks ['x']).2.2.2.2.2.1

/-- C2 counterexample: a read error other than io.EOF is surfaced with NO
AbortMultipartUpload call — the loop returns the read error before any
abort, so the session is not "explicitly aborted" as the claim states. -/
theorem claim_C2_counterexample :
    s3StreamToFileEv [Ev.rerr] (fun _ => false) false
      = ⟨some .readErr, [], 0, false⟩ :=
  rfl

/-- C2 amended: a part-upload failure aborts the session exactly once and
surfaces the upload error, unless the abort itself fails, in which case the
abort error is surfaced in its place; the object is completed exactly when
no error occurred; but a read error is surfaced with no abort call — the
session is left open, not aborted. -/
theorem claim_C2_amended (events : List Ev) (u : Nat → Bool) (a : Bool) :
    ((s3StreamToFileEv events u a).completed = true
      ↔ (s3StreamToFileEv events u a).err = none) ∧
    ((s3StreamToFileEv events u a).err = some .readErr →
      (s3StreamToFileEv events u a).abortCalls = 0) ∧
    (∀ k, (s3StreamToFileEv events u a).err = some (.uploadErr k) →
      (s3StreamToFileEv events u a).abortCalls = 1 ∧ u k = true ∧ a = false) ∧
    ((s3StreamToFileEv events u a).err = some .abortErr →
      (s3StreamToFileEv events u a).abortCalls = 1 ∧ a = true) :=
  s3Loop_spec u a events 1 []

theorem claim_C2_witness :
    (s3StreamToFileEv [Ev.chunk ['x']] (fun _ => true) false).abortCalls = 1 ∧
    (fun _ => true : Nat → Bool) 1 = true ∧ false = false :=
  (claim_C2_amended [Ev.chunk ['x']] (fun _ => true) false).2.2.1 1 rfl

/-- C4 counterexample: on the local backend, CreateFile with metadata writes
no primary content at all, so Stat of a previously absent path fails with
ErrFileNotFound instead of succeeding with the metadata. -/
theorem claim_C4_counterexample :
    localStat
        (localCreateFile [] "p" "x".toList (some [("owner".toList, "bob".toList)])) "p"
      = .error .fileNotFound :=
  rfl

/-- C4 amended: the create-then-stat metadata round trip holds for the
WebDav and object-store backends (for a nonempty mapping with keys and
values free of `=` and newline); the local backend instead fails Stat with
not-found on a previously absent path, because CreateFile with metadata
writes only the sidecar; the null backend reports no metadata. -/
theorem claim_C4_amended (fs : FS) (s : S3S) (p : String) (file : Bytes) (m : Meta)
    (hc : cleanMeta m) (hnd : metaKeysNodup m) (hne : m ≠ []) :
    webdavStat (webdavCreateFile fs p file (some m)) p = .ok (file.length, some m) ∧
    s3Stat (s3CreateFile s p file (some m)) p = .ok (file.length, m) ∧
    (fsGet fs p = none →
      localStat (localCreateFile fs p file (some m)) p = .error .fileNotFound) ∧
    emptyStat p = (none, none) := by
  refine ⟨?_, ?_, ?_, rfl⟩
  · have hfs2 : webdavCreateFile fs p file (some m)
        = fsSet (fsSet fs (metaPath p) (meta2Bytes m)) p file := rfl
    have hget_p : fsGet (webdavCreateFile fs p file (some m)) p = some file := by
      rw [hfs2]; exact fsGet_set_self _ p file
    have hget_mp : fsGet (webdavCreateFile fs p file (some m)) (metaPath p)
        = some (meta2Bytes m) := by
      rw [hfs2, fsGet_set_other _ (metaPath_ne p) file, fsGet_set_self]
    have hlen : 0 < (meta2Bytes m).length := List.length_pos.mpr (meta2Bytes_ne_nil hne)
    have hex : webdavIsExist (webdavCreateFile fs p file (some m)) (metaPath p) = true := by
      unfold webdavIsExist osStat
      rw [hget_mp]
      simpa using hlen
    simp [webdavStat, hget_p, hget_mp, hex, meta_roundtrip m hc hnd]
  · simp [s3Stat, s3CreateFile, s3Get_set_self]
  · intro hnone
    simp [localStat, localCreateFile, osStat,
      fsGet_set_other fs (Ne.symm (metaPath_ne p)) (meta2Bytes m), hnone]

theorem claim_C4_witness :
    webdavStat
        (webdavCreateFile [] "p" "x".toList (some [("owner".toList, "bob".toList)])) "p"
      = .ok ("x".toList.length, some [("owner".toList, "bob".toList)]) ∧
    localStat
        (localCreateFile [] "p" "x".toList (some [("owner".toList, "bob".toList)])) "p"
      = .error .fileNotFound := by
  have h := claim_C4_amended [] [] "p" "x".toList [("owner".toList, "bob".toList)]
    (by decide) (by decide) (by decide)
  exact ⟨h.1, h.2.2.1 rfl⟩

/-- C5 counterexample: on the local backend an override value containing `=`
is corrupted by the sidecar codec: after the copy, Stat of the destination
reports the empty mapping instead of the merged {owner: a=b}. -/
theorem claim_C5_counterexample :
    (localCopyFile [("s", "c".toList)] "s" "d"
        (some [("owner".toList, "a=b".toList)])).map (fun fs2 => localStat fs2 "d")
      = .ok (.ok (1, ([] : Meta))) ∧
    mergeMeta [] [("owner".toList, "a=b".toList)] = [("owner".toList, "a=b".toList)] ∧
    ([] : Meta) ≠ [("owner".toList, "a=b".toList)] :=
  ⟨rfl, rfl, by decide⟩

/-- C5 amended: copy-merge holds on the object store for arbitrary source
metadata and override; on the local and WebDav backends it holds provided
the override's keys and values contain neither `=` nor newline (the sidecar
codec silently corrupts them otherwise) and the source sidecar decodes to a
nonempty mapping. -/
theorem claim_C5_amended :
    (∀ (fs : FS) (src dst : String) (c mb : Bytes) (ov : Meta),
      fsGet fs src = some c → fsGet fs (metaPath src) = some mb → mb ≠ [] →
      bytes2Meta mb ≠ [] → cleanMeta ov → dst ≠ metaPath src →
      (localCopyFile fs src dst (some ov)).map (fun fs2 => localStat fs2 dst)
        = .ok (.ok (c.length, mergeMeta (bytes2Meta mb) ov))) ∧
    (∀ (fs : FS) (src dst : String) (c mb : Bytes) (ov : Meta),
      fsGet fs src = some c → fsGet fs (metaPath src) = some mb → mb ≠ [] →
      bytes2Meta mb ≠ [] → cleanMeta ov → src ≠ metaPath dst →
      (webdavCopyFile fs src dst (some ov)).map (fun fs2 => webdavStat fs2 dst)
        = .ok (.ok (c.length, some (mergeMeta (bytes2Meta mb) ov)))) ∧
    (∀ (s : S3S) (src dst : String) (o : S3Obj) (ov : Meta),
      s3Get s src = some o →
      (s3CopyFile s src dst (some ov)).map (fun s2 => s3Stat s2 dst)
        = .ok (.ok (o.content.length, mergeMeta o.meta ov))) := by
  refine ⟨?_, ?_, ?_⟩
  · intro fs src dst c mb ov hsrc hmb hmbne hdecne hcl hdst
    have hmerged_ne : mergeMeta (bytes2Meta mb) ov ≠ [] := mergeMeta_ne_nil hdecne ov
    have h1 : fsGet (fsSet fs dst c) (metaPath src) = some mb := by
      rw [fsGet_set_other fs (fun h => hdst h.symm) c, hmb]
    have hcopy : localCopyFile fs src dst (some ov)
        = .ok (fsSet (fsSet fs dst c) (metaPath dst)
            (meta2Bytes (mergeMeta (bytes2Meta mb) ov))) := by
      unfold localCopyFile
      rw [hsrc]
      simp only [h1, List.length_pos.mpr hmbne, if_true, Option.getD_some]
    have hg_dst : fsGet (fsSet (fsSet fs dst c) (metaPath dst)
        (meta2Bytes (mergeMeta (bytes2Meta mb) ov))) dst = some c := by
      rw [fsGet_set_other _ (Ne.symm (metaPath_ne dst)) _, fsGet_set_self]
    have hg_meta : fsGet (fsSet (fsSet fs dst c) (metaPath dst)
        (meta2Bytes (mergeMeta (bytes2Meta mb) ov))) (metaPath dst)
        = some (meta2Bytes (mergeMeta (bytes2Meta mb) ov)) := fsGet_set_self _ _ _
    have hm2ne : 0 < (meta2Bytes (mergeMeta (bytes2Meta mb) ov)).length :=
      List.length_pos.mpr (meta2Bytes_ne_nil hmerged_ne)
    have hrt : bytes2Meta (meta2Bytes (mergeMeta (bytes2Meta mb) ov))
        = mergeMeta (bytes2Meta mb) ov :=
      meta_roundtrip _ (cleanMeta_mergeMeta (cleanMeta_bytes2Meta mb) hcl)
        (keysNodup_mergeMeta ov (keysNodup_bytes2Meta mb))
    rw [hcopy]
    simp [localStat, osStat, localGetFile, localIsExist, hg_dst, hg_meta,
      hm2ne, hrt, Except.map]
  · intro fs src dst c mb ov hsrc hmb hmbne hdecne hcl hsrcne
    have hmerged_ne : mergeMeta (bytes2Meta mb) ov ≠ [] := mergeMeta_ne_nil hdecne ov
    have hex : webdavIsExist fs (metaPath src) = true := by
      unfold webdavIsExist osStat
      rw [hmb]
      simpa using List.length_pos.mpr hmbne
    have hgf : (webdavGetFile fs (metaPath src)).1.getD [] = mb := by
      simp [webdavGetFile, hex, hmb]
    have hcopy : webdavCopyFile fs src dst (some ov)
        = .ok (fsSet (fsSet fs (metaPath dst)
            (meta2Bytes (mergeMeta (bytes2Meta mb) ov))) dst c) := by
      unfold webdavCopyFile
      rw [hex]
      simp only [if_true, hgf, Option.getD_some]
      rw [fsGet_set_other fs hsrcne _, hsrc]
    have hg_dst : fsGet (fsSet (fsSet fs (metaPath dst)
        (meta2Bytes (mergeMeta (bytes2Meta mb) ov))) dst c) dst = some c :=
      fsGet_set_self _ _ _
    have hg_meta : fsGet (fsSet (fsSet fs (metaPath dst)
        (meta2Bytes (mergeMeta (bytes2Meta mb) ov))) dst c) (metaPath dst)
        = some (meta2Bytes (mergeMeta (bytes2Meta mb) ov)) := by
      rw [fsGet_set_other _ (metaPath_ne dst) _, fsGet_set_self]
    have hm2ne : 0 < (meta2Bytes (mergeMeta (bytes2Meta mb) ov)).length :=
      List.length_pos.mpr (meta2Bytes_ne_nil hmerged_ne)
    have hex2 : webdavIsExist (fsSet (fsSet fs (metaPath dst)
        (meta2Bytes (mergeMeta (bytes2Meta mb) ov))) dst c) (metaPath dst) = true := by
      unfold webdavIsExist osStat
      rw [hg_meta]
      simpa using hm2ne
    have hrt : bytes2Meta (meta2Bytes (mergeMeta (bytes2Meta mb) ov))
        = mergeMeta (bytes2Meta mb) ov :=
      meta_roundtrip _ (cleanMeta_mergeMeta (cleanMeta_bytes2Meta mb) hcl)
        (keysNodup_mergeMeta ov (keysNodup_bytes2Meta mb))
    rw [hcopy]
    simp [webdavStat, hg_dst, hg_meta, hex2, hrt, Except.map]
  · intro s src dst o ov hsrc
    simp [s3CopyFile, hsrc, s3Stat, s3Get_set_self, Except.map]

theorem claim_C5_witness :
    (localCopyFile
        [("s", "c".toList),
         ("s.meta", meta2Bytes
            [("owner".toList, "bob".toList), ("team".toList, "x".toList)])]
        "s" "d" (some [("owner".toList, "alice".toList)])).map
      (fun fs2 => localStat fs2 "d")
      = .ok (.ok ("c".toList.length,
          mergeMeta
            (bytes2Meta (meta2Bytes
              [("owner".toList, "bob".toList), ("team".toList, "x".toList)]))
            [("owner".toList, "alice".toList)])) :=
  claim_C5_amended.1 _ "s" "d" _ _ _ (by decide) (by decide) (by decide) (by decide)
    (by decide) (by decide)

/-- C8 counterexample: the local backend does not treat length 0 as a
to-end sentinel: on "hello" with offset 2 and length 0 it returns the empty
buffer, not the bytes "llo" from offset to end. -/
theorem claim_C8_counterexample :
    localGetFilePartially [("p", "hello".toList)] "p" 2 0 = (some [], none) ∧
    "hello".toList.drop 2 = "llo".toList :=
  ⟨rfl, rfl⟩

/-- C8 amended: reading from offset to end-of-object is triggered by a
strictly negative length on the local backend (length 0 yields an empty
buffer instead), and by any non-positive length — including 0 — on the
object-store backend. -/
theorem claim_C8_amended :
    (∀ (fs : FS) (p : String) (c : Bytes) (offset length : Int),
      fsGet fs p = some c → c ≠ [] → 0 ≤ offset → offset ≤ (c.length : Int) →
      length < 0 →
      localGetFilePartially fs p offset length = (some (c.drop offset.toNat), none)) ∧
    (∀ (fs : FS) (p : String) (c : Bytes) (offset : Int),
      fsGet fs p = some c → c ≠ [] → 0 ≤ offset →
      localGetFilePartially fs p offset 0 = (some [], none)) ∧
    (∀ (s : S3S) (p : String) (o : S3Obj) (offset length : Int),
      s3Get s p = some o → 0 ≤ offset → offset < (o.content.length : Int) →
      length ≤ 0 →
      s3GetFilePartially s p offset length = .ok (o.content.drop offset.toNat)) := by
  refine ⟨?_, ?_, ?_⟩
  · intro fs p c offset length hget hcne hoff hoffle hneg
    have hex : localIsExist fs p = true := by
      unfold localIsExist osStat
      rw [hget]
      simpa using List.length_pos.mpr hcne
    have hlen_nonneg : ¬ ((c.length : Int) - offset < 0) := by omega
    have hoff_nonneg : ¬ (offset < 0) := by omega
    have hbuf : readAtBuf c offset.toNat ((c.length : Int) - offset).toNat
        = c.drop offset.toNat := by
      unfold readAtBuf
      have htn : ((c.length : Int) - offset).toNat = c.length - offset.toNat := by
        omega
      have hdl : (c.drop offset.toNat).length = c.length - offset.toNat := by
        simp [List.length_drop]
      rw [htn, List.take_of_length_le (le_of_eq hdl)]
      simp [hdl]
    simp [localGetFilePartially, hex, hget, if_pos hneg, hlen_nonneg, hoff_nonneg, hbuf]
  · intro fs p c offset hget hcne hoff
    have hex : localIsExist fs p = true := by
      unfold localIsExist osStat
      rw [hget]
      simpa using List.length_pos.mpr hcne
    have h0 : ¬ ((0 : Int) < 0) := by omega
    have hoff_nonneg : ¬ (offset < 0) := by omega
    simp [localGetFilePartially, hex, hget, h0, hoff_nonneg, readAtBuf]
  · intro s p o offset length hget hoff hlt hle
    have h1 : ¬ (offset < 0) := by omega
    have h2 : ¬ ((o.content.length : Int) ≤ offset) := by omega
    have h3 : ¬ ((0 : Int) < length) := by omega
    simp [s3GetFilePartially, s3FileReader, hget, h1, h2, h3]

theorem claim_C8_witness :
    localGetFilePartially [("p", "hello".toList)] "p" 2 (-1)
      = (some ("hello".toList.drop (2 : Int).toNat), none) ∧
    s3GetFilePartially [("p", ⟨"hello".toList, []⟩)] "p" 2 0
      = .ok ("hello".toList.drop (2 : Int).toNat) :=
  ⟨claim_C8_amended.1 _ "p" _ 2 (-1) (by decide) (by decide) (by decide) (by decide)
      (by decide),
    claim_C8_amended.2.2 _ "p" ⟨"hello".toList, []⟩ 2 0 (by decide) (by decide)
      (by decide) (by decide)⟩

end GoStore
